import Mathlib

/-!
Shallow embedding of `VectorSorting.cpp` (bid loading, three sorts, binary
search, hash-map lookup, benchmark CSV export) and proofs of the spec's
claims about it.

Conventions of the embedding:
* `std::vector<Bid>` is a `List Bid`; in-place mutation becomes explicit
  state passing (each loop returns the updated list).
* C++ `std::string` comparison is byte-wise lexicographic; we model strings
  as Lean `String` and compare their character lists (`String.data`), which
  agrees with the byte order on the ASCII data this program handles.
  Comparisons are `Bool`-valued so that concrete runs evaluate by `decide`.
* `double` amounts are modeled as `Rat`; `atof` is modeled by its decimal
  grammar (optional whitespace, sign, digits, fraction, exponent).
  Hexadecimal, infinity and NaN forms are outside the model.
* C++ `int` indices that can go negative (`partition`, `quickSort`,
  `binarySearch`) are `Int`; loop counters that stay non-negative
  (`selectionSort`, `mergeSort`) are `Nat`.
* `quickSort`'s loops carry a fuel parameter and return `none` when fuel
  runs out, so non-termination of the C++ recursion is expressible as
  "`none` for every fuel".
-/

/-- The bid record from `VectorSorting.cpp`: `bidId`, `title`, `fund`,
`amount`.  The default constructor sets `amount = 0.0`. -/
structure Bid where
  bidId : String
  title : String
  fund : String
  amount : Rat
deriving DecidableEq, Repr

/-- C++ `Bid()` default-constructs empty strings and `amount = 0.0`. -/
instance : Inhabited Bid := ⟨⟨"", "", "", 0⟩⟩

/-- Byte-wise `operator<` of `std::string`, on character lists. -/
def strLtB (a b : String) : Bool := decide (a.data < b.data)

/-- Byte-wise `operator<=` of `std::string`, on character lists. -/
def strLeB (a b : String) : Bool := decide (a.data ≤ b.data)

/-- Byte-wise `operator>` of `std::string`, on character lists. -/
def strGtB (a b : String) : Bool := decide (b.data < a.data)

/-- Byte-wise `operator==` of `std::string`, on character lists. -/
def strEqB (a b : String) : Bool := decide (a.data = b.data)

theorem strLtB_iff {a b : String} : strLtB a b = true ↔ a < b := by
  rw [String.lt_iff_toList_lt]; simp [strLtB, String.toList]

theorem strLeB_iff {a b : String} : strLeB a b = true ↔ a ≤ b := by
  rw [String.le_iff_toList_le]; simp [strLeB, String.toList]

theorem strGtB_iff {a b : String} : strGtB a b = true ↔ b < a := by
  rw [String.lt_iff_toList_lt]; simp [strGtB, String.toList]

theorem strEqB_iff {a b : String} : strEqB a b = true ↔ a = b := by
  simp only [strEqB, decide_eq_true_eq]
  exact String.toList_inj

theorem strLtB_false_iff {a b : String} : strLtB a b = false ↔ b ≤ a := by
  rw [← Bool.not_eq_true, strLtB_iff (a := a) (b := b)]
  exact not_lt

theorem strLeB_false_iff {a b : String} : strLeB a b = false ↔ b < a := by
  rw [← Bool.not_eq_true, strLeB_iff (a := a) (b := b)]
  exact not_le

theorem strGtB_false_iff {a b : String} : strGtB a b = false ↔ a ≤ b := by
  rw [← Bool.not_eq_true, strGtB_iff (a := a) (b := b)]
  exact not_lt

/-! ### Numeric parsing: `strToDouble` (erase character, then `atof`) -/

/-- C `isspace` characters skipped by `atof`. -/
def isSpaceC (c : Char) : Bool :=
  c = ' ' || c = '\t' || c = '\n' || c = '\x0b' || c = '\x0c' || c = '\r'

/-- Value of one decimal digit character. -/
def digitVal (c : Char) : Nat := c.toNat - '0'.toNat

/-- Value of a decimal digit sequence (most significant first). -/
def digitsVal (cs : List Char) : Nat := cs.foldl (fun a c => 10 * a + digitVal c) 0

/-- Exponent part of the `atof` grammar: `e`/`E`, optional sign, digits.
If no digits follow the exponent marker, the exponent is not consumed and
contributes 0, as in C `strtod`.  Trailing junk is ignored. -/
def expVal (cs : List Char) : Int :=
  match cs with
  | c :: rest =>
    if c = 'e' ∨ c = 'E' then
      match rest with
      | '-' :: t =>
        let ds := t.takeWhile Char.isDigit
        if ds = [] then 0 else -(digitsVal ds : Int)
      | '+' :: t =>
        let ds := t.takeWhile Char.isDigit
        if ds = [] then 0 else (digitsVal ds : Int)
      | t =>
        let ds := t.takeWhile Char.isDigit
        if ds = [] then 0 else (digitsVal ds : Int)
    else 0
  | [] => 0

/-- Magnitude part of the `atof` grammar after the optional sign: digits,
optional `.` plus digits, optional exponent.  `none` when there is no digit
at all (C: "no conversion could be performed"). -/
def parseMag (cs : List Char) : Option Rat :=
  let ip := cs.takeWhile Char.isDigit
  let rest := cs.dropWhile Char.isDigit
  match rest with
  | '.' :: t =>
    let fp := t.takeWhile Char.isDigit
    if ip = [] ∧ fp = [] then none
    else some (((digitsVal ip : Rat) + (digitsVal fp : Rat) / (10 : Rat) ^ fp.length)
      * (10 : Rat) ^ expVal (t.dropWhile Char.isDigit))
  | _ =>
    if ip = [] then none
    else some ((digitsVal ip : Rat) * (10 : Rat) ^ expVal rest)

/-- Model of C `atof` on the decimal grammar: skip whitespace, optional
sign, magnitude; 0 when no conversion is possible. -/
def atofModel (cs : List Char) : Rat :=
  match cs.dropWhile isSpaceC with
  | '-' :: t => -((parseMag t).getD 0)
  | '+' :: t => (parseMag t).getD 0
  | t => (parseMag t).getD 0

/-- Model of `strToDouble` (`VectorSorting.cpp:305`): erase every occurrence
of `ch` (`str.erase(remove(...))`), then `atof`. -/
def strToDouble (str : String) (ch : Char) : Rat :=
  atofModel (str.data.filter (fun c => c ≠ ch))

/-! ### The record loader: `loadBids` -/

/-- Column extraction done for row `i` inside the `loadBids` loop:
`bidId = file[i][1]`, `title = file[i][0]`, `fund = file[i][8]`,
`amount = strToDouble(file[i][4], '$')`. -/
def mkBidFromRow (r : List String) : Bid :=
  { bidId := r.getD 1 ""
    title := r.getD 0 ""
    fund := r.getD 8 ""
    amount := strToDouble (r.getD 4 "") '$' }

/-- The `loadBids` row loop with its surrounding `try`/`catch`: rows are
consumed in order; the first row with fewer than 9 fields makes a
`file[i][j]` access throw `csv::Error` before the bid is pushed, the
handler prints and the bids read so far are returned. -/
def loadRowsLoop : List (List String) → List Bid
  | [] => []
  | r :: rest =>
    if 9 ≤ r.length then mkBidFromRow r :: loadRowsLoop rest
    else []

/-- Model of `loadBids` (`VectorSorting.cpp:87`).  The CSV collaborator
(`csv::Parser`, third-party, out of scope per the spec) either yields the
list of rows or fails at construction time (e.g. the file is missing), in
which case it throws `csv::Error` from `csv::Parser(csvPath)` — a call that
sits *outside* the `try` block, so the exception leaves `loadBids`
(modeled as `Except.error`).  Row-level failures are handled inside the
`try` by `loadRowsLoop`. -/
def loadBids (source : Except String (List (List String))) : Except String (List Bid) :=
  match source with
  | .error e => .error e
  | .ok rows => .ok (loadRowsLoop rows)

/-! ### Benchmark export: `exportBenchmarkToCSV` -/

/-- One data line written by `exportBenchmarkToCSV`:
`algorithm << "," << dataSize << "," << timeMs`.  The callers in `main`
pass integral millisecond counts, so `timeMs` is modeled as `Int`. -/
def benchLine (algorithm : String) (dataSize : Nat) (timeMs : Int) : String :=
  algorithm ++ "," ++ toString dataSize ++ "," ++ toString timeMs

/-- Model of `exportBenchmarkToCSV` (`VectorSorting.cpp:348`).  The file is
a list of lines, `none` when it does not exist.  `checkFile.good()` is
existence; the file is opened in append mode; the header is written only
when the file did not exist. -/
def exportBenchmarkToCSV (fs : Option (List String)) (algorithm : String)
    (dataSize : Nat) (timeMs : Int) : List String :=
  let fileExists := fs.isSome
  let contents := fs.getD []
  let contents := if fileExists then contents else contents ++ ["Algorithm,DataSize,TimeMs"]
  contents ++ [benchLine algorithm dataSize timeMs]

/-! ### Identifier lookup: the `bidHashMap` in `main` -/

/-- One `bidHashMap[bid.bidId] = bid;` step of the load handler in `main`
(`VectorSorting.cpp:416`), on an association-list model of
`std::unordered_map` in which the most recent insertion wins. -/
def hmInsert (m : List (String × Bid)) (k : String) (v : Bid) : List (String × Bid) :=
  (k, v) :: m

/-- `bidHashMap.find(searchId)` (`VectorSorting.cpp:556`): the stored bid
for the identifier, or `none`. -/
def hmFind (m : List (String × Bid)) (k : String) : Option Bid :=
  (m.find? (fun p => p.1 = k)).map (·.2)

/-- The map-building loop run by menu choice 1 after `loadBids`
(`VectorSorting.cpp:414`–`418`): clear, then insert every bid keyed by its
`bidId`. -/
def buildBidMap (bids : List Bid) : List (String × Bid) :=
  bids.foldl (fun m b => hmInsert m b.bidId b) []

/-! ### Vector access and swap primitives -/

/-- `bids.at(i)` / `bids[i]` for `Nat` indices.  All verified runs stay in
bounds; out-of-range access (undefined behavior in C++) is totalized with
the default bid. -/
def bidAtN (bids : List Bid) (i : Nat) : Bid := bids.getD i default

/-- `bids[i]` for `int` indices (`partition`, `binarySearch`). -/
def bidAt (bids : List Bid) (i : Int) : Bid :=
  if 0 ≤ i then bidAtN bids i.toNat else default

/-- `std::swap(bids.at(a), bids.at(b))`: read both, write both. -/
def listSwap (l : List Bid) (a b : Nat) : List Bid :=
  (l.set a (bidAtN l b)).set b (bidAtN l a)

/-- `swap(bids[left], bids[right])` with `int` indices. -/
def listSwapI (l : List Bid) (a b : Int) : List Bid := listSwap l a.toNat b.toNat

/-! ### `selectionSort` (`VectorSorting.cpp:193`) -/

/-- The inner `for (j = i + 1; ...)` loop of `selectionSort`: scan indices
`[j, bids.size())`, replacing the running minimum index `best` whenever
`bids.at(j).title.compare(bids.at(best).title) < 0`. -/
def findMin (bids : List Bid) (best j : Nat) : Nat :=
  if j < bids.length then
    findMin bids (if strLtB (bidAtN bids j).title (bidAtN bids best).title then j else best) (j + 1)
  else best
termination_by bids.length - j

/-- The outer `for (i = 0; ...)` loop of `selectionSort`: find the minimum
of the suffix and swap it into position `i` (skipping the no-op swap as the
source does). -/
def selLoop (bids : List Bid) (i : Nat) : List Bid :=
  if i < bids.length then
    let m := findMin bids i (i + 1)
    selLoop (if m ≠ i then listSwap bids i m else bids) (i + 1)
  else bids
termination_by bids.length - i
decreasing_by
  split
  · simp only [listSwap, List.length_set]; omega
  · omega

/-- Model of `selectionSort` (`VectorSorting.cpp:193`). -/
def selectionSort (bids : List Bid) : List Bid := selLoop bids 0

/-! ### `merge` and `mergeSort` (`VectorSorting.cpp:225`, `283`) -/

/-- The three `while` loops of `merge`: repeatedly emit the
smaller-or-equal head (`leftArray[i].title <= rightArray[j].title` keeps
the left element), then copy whichever side remains. -/
def mergeLists : List Bid → List Bid → List Bid
  | [], ys => ys
  | x :: xs, [] => x :: xs
  | x :: xs, y :: ys =>
    if strLeB x.title y.title then x :: mergeLists xs (y :: ys)
    else y :: mergeLists (x :: xs) ys
termination_by xs ys => xs.length + ys.length

/-- Model of `merge` (`VectorSorting.cpp:225`): copy
`leftArray = bids[left..mid]` and `rightArray = bids[mid+1..right]` out,
then write the merged sequence back over positions `left..right` (the
write-back index `k` covers exactly that segment). -/
def merge (bids : List Bid) (left mid right : Nat) : List Bid :=
  let leftArray := (bids.drop left).take (mid - left + 1)
  let rightArray := (bids.drop (mid + 1)).take (right - mid)
  bids.take left ++ mergeLists leftArray rightArray ++ bids.drop (right + 1)

/-- Model of `mergeSort` (`VectorSorting.cpp:283`) on a `[left, right]`
index range. -/
def mergeSort (bids : List Bid) (left right : Nat) : List Bid :=
  if left < right then
    let mid := left + (right - left) / 2
    let b1 := mergeSort bids left mid
    let b2 := mergeSort b1 (mid + 1) right
    merge b2 left mid right
  else bids
termination_by right - left
decreasing_by
  · omega
  · omega

/-- `mergeSort(bids, 0, bids.size() - 1)` as called from `main`
(`VectorSorting.cpp:499`); on an empty vector `size - 1` underflows to the
int `-1` and `left < right` fails immediately. -/
def mergeSortAll (bids : List Bid) : List Bid :=
  if bids.isEmpty then bids else mergeSort bids 0 (bids.length - 1)

/-! ### `binarySearch` (`VectorSorting.cpp:319`) -/

/-- The `while (left <= right)` loop of `binarySearch`.  Inside the loop
`right - left ≥ 0`, so the C++ `int` division in
`mid = left + (right - left) / 2` is the natural-number division used
here. -/
def bsLoop (bids : List Bid) (title : String) (left right : Int) : Int :=
  if left ≤ right then
    let mid := left + (((right - left).toNat / 2 : Nat) : Int)
    if strEqB (bidAt bids mid).title title then mid
    else if strLtB (bidAt bids mid).title title then bsLoop bids title (mid + 1) right
    else bsLoop bids title left (mid - 1)
  else -1
termination_by (right + 1 - left).toNat
decreasing_by
  · omega
  · omega

/-- Model of `binarySearch` (`VectorSorting.cpp:319`): `left = 0`,
`right = bids.size() - 1` (the unsigned-to-int conversion makes this `-1`
on an empty vector), returning the matching index or `-1`. -/
def binarySearch (bids : List Bid) (title : String) : Int :=
  bsLoop bids title 0 ((bids.length : Int) - 1)

/-! ### `partition` and `quickSort` (`VectorSorting.cpp:123`, `163`)

The C++ recursion is not structurally terminating (and in fact does not
terminate on some inputs), so every loop and the recursion carry a fuel
parameter; `none` means the fuel ran out. -/

/-- The `while (bids[left].title < pivotBid.title) left++;` scan. -/
def scanLeft (fuel : Nat) (bids : List Bid) (pivotTitle : String) (left : Int) : Option Int :=
  match fuel with
  | 0 => none
  | fuel + 1 =>
    if strLtB (bidAt bids left).title pivotTitle then scanLeft fuel bids pivotTitle (left + 1)
    else some left

/-- The `while (bids[right].title > pivotBid.title) right--;` scan. -/
def scanRight (fuel : Nat) (bids : List Bid) (pivotTitle : String) (right : Int) : Option Int :=
  match fuel with
  | 0 => none
  | fuel + 1 =>
    if strGtB (bidAt bids right).title pivotTitle then scanRight fuel bids pivotTitle (right - 1)
    else some right

/-- The `while (left <= right)` loop of `partition`: scan both ends inward,
swap and step past the pair when `left <= right` still holds, and finally
return `right`. -/
def partitionLoop (fuel : Nat) (bids : List Bid) (pivotTitle : String)
    (left right : Int) : Option (List Bid × Int) :=
  match fuel with
  | 0 => none
  | fuel + 1 =>
    if left ≤ right then
      match scanLeft fuel bids pivotTitle left with
      | none => none
      | some l =>
        match scanRight fuel bids pivotTitle right with
        | none => none
        | some r =>
          if l ≤ r then partitionLoop fuel (listSwapI bids l r) pivotTitle (l + 1) (r - 1)
          else partitionLoop fuel bids pivotTitle l r
    else some (bids, right)

/-- Model of `partition` (`VectorSorting.cpp:123`): the pivot is a copy of
`bids[(start + end) / 2]` (both ends are non-negative whenever the C++
program reaches this call, so `int` division is `Nat` division here). -/
def partition (fuel : Nat) (bids : List Bid) (start end_ : Int) : Option (List Bid × Int) :=
  let pivotTitle := (bidAt bids (((start + end_).toNat / 2 : Nat) : Int)).title
  partitionLoop fuel bids pivotTitle start end_

/-- Model of `quickSort` (`VectorSorting.cpp:163`): base case
`begin >= end`, then partition and recurse on `[begin, mid]` and
`[mid + 1, end]`. -/
def quickSort (fuel : Nat) (bids : List Bid) (begin_ end_ : Int) : Option (List Bid) :=
  match fuel with
  | 0 => none
  | fuel + 1 =>
    if begin_ ≥ end_ then some bids
    else
      match partition fuel bids begin_ end_ with
      | none => none
      | some (bids1, mid) =>
        match quickSort fuel bids1 begin_ mid with
        | none => none
        | some bids2 => quickSort fuel bids2 (mid + 1) end_

/-! ### Specification predicates -/

/-- The ordering property all three sorts establish: titles are
non-decreasing under case-sensitive lexicographic comparison. -/
def sortedByTitle (l : List Bid) : Prop := l.Pairwise (fun a b => a.title ≤ b.title)

/-- The subsequence of records carrying one fixed title, in order; equality
of these subsequences is the standard formalization of sort stability. -/
def titleFilter (t : String) (l : List Bid) : List Bid :=
  l.filter (fun b => strEqB b.title t)

/-! ### Basic facts about `bidAtN` and `listSwap` -/

theorem bidAtN_def (l : List Bid) (i : Nat) : bidAtN l i = (l[i]?).getD default :=
  List.getD_eq_getElem?_getD l i default

theorem bidAtN_eq_getElem {bids : List Bid} {i : Nat} (h : i < bids.length) :
    bidAtN bids i = bids[i] := List.getD_eq_getElem bids default h

theorem length_listSwap (l : List Bid) (a b : Nat) :
    (listSwap l a b).length = l.length := by
  simp [listSwap]

theorem bidAtN_cons_succ {x : Bid} {t : List Bid} {n : Nat} :
    bidAtN (x :: t) (n + 1) = bidAtN t n := List.getD_cons_succ

theorem bidAtN_cons_zero {x : Bid} {t : List Bid} : bidAtN (x :: t) 0 = x :=
  List.getD_cons_zero

/-- When reading inside the list, `listSwap` puts the `b`-th element at
position `a`. -/
theorem bidAtN_listSwap_fst {l : List Bid} {a b : Nat} (ha : a < l.length)
    (hb : b < l.length) : bidAtN (listSwap l a b) a = bidAtN l b := by
  by_cases hab : a = b
  · subst hab
    rw [bidAtN_def, listSwap, List.getElem?_set_self (by simpa using ha)]
    rfl
  · rw [bidAtN_def, listSwap, List.getElem?_set_ne (fun h => hab h.symm),
      List.getElem?_set_self ha]
    rfl

/-- When reading inside the list, `listSwap` puts the `a`-th element at
position `b`. -/
theorem bidAtN_listSwap_snd {l : List Bid} {a b : Nat} (hb : b < l.length) :
    bidAtN (listSwap l a b) b = bidAtN l a := by
  rw [bidAtN_def, listSwap, List.getElem?_set_self (by simpa using hb)]
  rfl

/-- `listSwap` leaves every other position unchanged. -/
theorem bidAtN_listSwap_other {l : List Bid} {a b c : Nat} (hca : c ≠ a)
    (hcb : c ≠ b) : bidAtN (listSwap l a b) c = bidAtN l c := by
  rw [bidAtN_def, listSwap, List.getElem?_set_ne (fun h => hcb h.symm),
    List.getElem?_set_ne (fun h => hca h.symm), ← bidAtN_def]

/-- Auxiliary step for the swap permutation: pulling the `k`-th element of a
list to the front while writing `x` into its place is a permutation of
putting `x` in front. -/
theorem getD_cons_set_perm :
    ∀ (t : List Bid) (k : Nat) (x : Bid), k < t.length →
      (t.getD k default :: t.set k x).Perm (x :: t)
  | y :: s, 0, x, _ => by
    simpa using List.Perm.swap x y s
  | y :: s, k + 1, x, h => by
    have ih := getD_cons_set_perm s k x (by simpa using h)
    have h1 : (y :: s).getD (k + 1) default :: (y :: s).set (k + 1) x
        = s.getD k default :: y :: s.set k x := by simp
    rw [h1]
    exact ((List.Perm.swap y _ _).trans ((ih.cons y).trans (List.Perm.swap x y s)) : _)
  | [], k, x, h => by simp at h

/-- Swapping two in-range positions permutes the list. -/
theorem listSwap_perm :
    ∀ (l : List Bid) (a b : Nat), a < l.length → b < l.length →
      (listSwap l a b).Perm l
  | [], a, _, ha, _ => by simp at ha
  | x :: t, 0, 0, _, _ => by
    simp [listSwap, bidAtN]
  | x :: t, 0, b + 1, _, hb => by
    have hb' : b < t.length := by simpa using hb
    have h1 : listSwap (x :: t) 0 (b + 1) = t.getD b default :: t.set b x := by
      simp [listSwap, bidAtN]
    rw [h1]
    exact getD_cons_set_perm t b x hb'
  | x :: t, a + 1, 0, ha, _ => by
    have ha' : a < t.length := by simpa using ha
    have h1 : listSwap (x :: t) (a + 1) 0 = t.getD a default :: t.set a x := by
      simp [listSwap, bidAtN]
    rw [h1]
    exact getD_cons_set_perm t a x ha'
  | x :: t, a + 1, b + 1, ha, hb => by
    have ha' : a < t.length := by simpa using ha
    have hb' : b < t.length := by simpa using hb
    have h1 : listSwap (x :: t) (a + 1) (b + 1) = x :: listSwap t a b := by
      simp [listSwap, bidAtN]
    rw [h1]
    exact (listSwap_perm t a b ha' hb').cons x


/-! ### Correctness of `selectionSort` -/

theorem findMin_stop {bids : List Bid} {best j : Nat} (hj : ¬ j < bids.length) :
    findMin bids best j = best := by
  rw [findMin, if_neg hj]

theorem findMin_step_lt {bids : List Bid} {best j : Nat} (hj : j < bids.length)
    (hc : strLtB (bidAtN bids j).title (bidAtN bids best).title = true) :
    findMin bids best j = findMin bids j (j + 1) := by
  conv_lhs => rw [findMin]
  simp only [hj, if_true, hc, if_pos]

theorem findMin_step_ge {bids : List Bid} {best j : Nat} (hj : j < bids.length)
    (hc : strLtB (bidAtN bids j).title (bidAtN bids best).title = false) :
    findMin bids best j = findMin bids best (j + 1) := by
  conv_lhs => rw [findMin]
  simp only [hj, if_true, hc, Bool.false_eq_true, if_false]

/-- Specification of the inner scan of `selectionSort`: starting from
candidate `best`, `findMin` returns `best` itself or an index in
`[j, size)`, and its title is minimal among `best` and all of `[j, size)`. -/
theorem findMin_spec (bids : List Bid) :
    ∀ best j, best < bids.length →
      (findMin bids best j = best ∨
        (j ≤ findMin bids best j ∧ findMin bids best j < bids.length)) ∧
      (bidAtN bids (findMin bids best j)).title ≤ (bidAtN bids best).title ∧
      (∀ k, j ≤ k → k < bids.length →
        (bidAtN bids (findMin bids best j)).title ≤ (bidAtN bids k).title) := by
  intro best j
  induction best, j using findMin.induct bids with
  | case1 best j hj ih =>
    intro hbest
    by_cases hc : strLtB (bidAtN bids j).title (bidAtN bids best).title = true
    · rw [findMin_step_lt hj hc]
      rw [dif_pos hc] at ih
      obtain ⟨ihA, ihB, ihC⟩ := ih hj
      have hjb : (bidAtN bids j).title < (bidAtN bids best).title := strLtB_iff.mp hc
      refine ⟨?_, ?_, ?_⟩
      · rcases ihA with h | ⟨h1, h2⟩
        · exact Or.inr ⟨by omega, by omega⟩
        · exact Or.inr ⟨by omega, h2⟩
      · exact le_trans ihB (le_of_lt hjb)
      · intro k hk hklen
        rcases Nat.eq_or_lt_of_le hk with rfl | hk'
        · exact ihB
        · exact ihC k hk' hklen
    · have hc' : strLtB (bidAtN bids j).title (bidAtN bids best).title = false :=
        Bool.not_eq_true _ ▸ (by simpa using hc)
      rw [findMin_step_ge hj hc']
      rw [dif_neg (by simp [hc'])] at ih
      obtain ⟨ihA, ihB, ihC⟩ := ih hbest
      have hbj : (bidAtN bids best).title ≤ (bidAtN bids j).title :=
        strLtB_false_iff.mp hc'
      refine ⟨?_, ihB, ?_⟩
      · rcases ihA with h | ⟨h1, h2⟩
        · exact Or.inl h
        · exact Or.inr ⟨by omega, h2⟩
      · intro k hk hklen
        rcases Nat.eq_or_lt_of_le hk with rfl | hk'
        · exact le_trans ihB hbj
        · exact ihC k hk' hklen
  | case2 best j hj =>
    intro hbest
    rw [findMin_stop hj]
    refine ⟨Or.inl rfl, le_refl _, ?_⟩
    intro k hk hklen
    omega

theorem selLoop_stop {bids : List Bid} {i : Nat} (hi : ¬ i < bids.length) :
    selLoop bids i = bids := by
  rw [selLoop, if_neg hi]

theorem selLoop_step {bids : List Bid} {i : Nat} (hi : i < bids.length) :
    selLoop bids i =
      selLoop (if findMin bids i (i + 1) ≠ i then listSwap bids i (findMin bids i (i + 1))
        else bids) (i + 1) := by
  conv_lhs => rw [selLoop]
  rw [if_pos hi]

/-- Loop invariant of `selectionSort`'s outer loop: if the prefix before
`i` is sorted and dominated by the suffix, the loop returns a sorted
permutation. -/
theorem selLoop_spec :
    ∀ bids i,
      (∀ p q, p < q → q < i → q < bids.length →
        (bidAtN bids p).title ≤ (bidAtN bids q).title) →
      (∀ p q, p < i → i ≤ q → q < bids.length →
        (bidAtN bids p).title ≤ (bidAtN bids q).title) →
      (selLoop bids i).Perm bids ∧
      (∀ p q, p < q → q < bids.length →
        (bidAtN (selLoop bids i) p).title ≤ (bidAtN (selLoop bids i) q).title) := by
  intro bids i
  induction bids, i using selLoop.induct with
  | case1 bids i hi m ih =>
    intro hpre hcross
    simp only [dite_eq_ite] at ih
    have hm : m = findMin bids i (i + 1) := rfl
    obtain ⟨FA, FB, FC⟩ := findMin_spec bids i (i + 1) hi
    rw [← hm] at FA FB FC
    have hmlen : m < bids.length := by
      rcases FA with h | ⟨_, h2⟩
      · rw [h]; exact hi
      · exact h2
    have him : i ≤ m := by
      rcases FA with h | ⟨h1, _⟩ <;> omega
    have hmin : ∀ k, i ≤ k → k < bids.length →
        (bidAtN bids m).title ≤ (bidAtN bids k).title := by
      intro k hk hklen
      rcases Nat.eq_or_lt_of_le hk with rfl | hk'
      · exact FB
      · exact FC k hk' hklen
    set bids2 := if m ≠ i then listSwap bids i m else bids with hbids2
    have hlen2 : bids2.length = bids.length := by
      rw [hbids2]; split
      · exact length_listSwap bids i m
      · rfl
    have ht_i : bidAtN bids2 i = bidAtN bids m := by
      rw [hbids2]; split
      · exact bidAtN_listSwap_fst hi hmlen
      · rename_i hne
        have : m = i := by omega
        rw [this]
    have ht_m : bidAtN bids2 m = bidAtN bids i := by
      rw [hbids2]; split
      · exact bidAtN_listSwap_snd hmlen
      · rename_i hne
        have : m = i := by omega
        rw [this]
    have ht_other : ∀ q, q ≠ i → q ≠ m → bidAtN bids2 q = bidAtN bids q := by
      intro q hqi hqm
      rw [hbids2]; split
      · exact bidAtN_listSwap_other hqi hqm
      · rfl
    have hpre2 : ∀ p q, p < q → q < i + 1 → q < bids2.length →
        (bidAtN bids2 p).title ≤ (bidAtN bids2 q).title := by
      intro p q hpq hqi1 hqlen
      rw [hlen2] at hqlen
      rcases Nat.lt_or_ge q i with hqi | hqi
      · rw [ht_other p (by omega) (by omega), ht_other q (by omega) (by omega)]
        exact hpre p q hpq hqi hqlen
      · have hq : q = i := by omega
        rw [hq, ht_other p (by omega) (by omega), ht_i]
        exact hcross p m (by omega) him hmlen
    have hcross2 : ∀ p q, p < i + 1 → i + 1 ≤ q → q < bids2.length →
        (bidAtN bids2 p).title ≤ (bidAtN bids2 q).title := by
      intro p q hp hq hqlen
      rw [hlen2] at hqlen
      rcases Nat.lt_or_ge p i with hpi | hpi
      · rw [ht_other p (by omega) (by omega)]
        by_cases hqm : q = m
        · rw [hqm, ht_m]
          exact hcross p i hpi (le_refl i) hi
        · rw [ht_other q (by omega) hqm]
          exact hcross p q hpi (by omega) hqlen
      · have hp2 : p = i := by omega
        rw [hp2, ht_i]
        by_cases hqm : q = m
        · rw [hqm, ht_m]
          exact hmin i (le_refl i) hi
        · rw [ht_other q (by omega) hqm]
          exact hmin q (by omega) hqlen
    have hperm2 : bids2.Perm bids := by
      rw [hbids2]; split
      · exact listSwap_perm bids i m hi hmlen
      · exact List.Perm.refl bids
    obtain ⟨ihP, ihS⟩ := ih hpre2 hcross2
    rw [selLoop_step hi, ← hm, ← hbids2]
    constructor
    · exact ihP.trans hperm2
    · intro p q hpq hqlen
      exact ihS p q hpq (by rw [hlen2]; exact hqlen)
  | case2 bids i hi =>
    intro hpre _hcross
    rw [selLoop_stop hi]
    refine ⟨List.Perm.refl bids, ?_⟩
    intro p q hpq hqlen
    exact hpre p q hpq (by omega) hqlen

/-- `selectionSort` permutes its input. -/
theorem selectionSort_perm (bids : List Bid) : (selectionSort bids).Perm bids :=
  (selLoop_spec bids 0 (by omega) (by intro p q hp _ _; omega)).1

/-- `selectionSort` sorts by title. -/
theorem selectionSort_sorted (bids : List Bid) : sortedByTitle (selectionSort bids) := by
  obtain ⟨hP, hS⟩ := selLoop_spec bids 0 (by omega) (by intro p q hp _ _; omega)
  have hlen : (selLoop bids 0).length = bids.length := hP.length_eq
  rw [sortedByTitle, List.pairwise_iff_getElem]
  intro a b ha hb hab
  have ha2 : a < (selLoop bids 0).length := ha
  have hb2 : b < (selLoop bids 0).length := hb
  have h2 := hS a b hab (by omega)
  rw [bidAtN_eq_getElem ha2, bidAtN_eq_getElem hb2] at h2
  exact h2

/-! ### Correctness and stability of `mergeSort` -/

theorem strEqB_false_iff {a b : String} : strEqB a b = false ↔ a ≠ b := by
  rw [← Bool.not_eq_true, strEqB_iff (a := a) (b := b)]

/-- The merge loop produces a permutation of its two inputs. -/
theorem mergeLists_perm : ∀ xs ys : List Bid, (mergeLists xs ys).Perm (xs ++ ys) := by
  intro xs ys
  induction xs, ys using mergeLists.induct with
  | case1 ys => simp [mergeLists]
  | case2 x xs => simp [mergeLists]
  | case3 x xs y ys hle ih =>
    have hstep : mergeLists (x :: xs) (y :: ys) = x :: mergeLists xs (y :: ys) := by
      rw [mergeLists, if_pos hle]
    rw [hstep]
    exact ih.cons x
  | case4 x xs y ys hle ih =>
    have hstep : mergeLists (x :: xs) (y :: ys) = y :: mergeLists (x :: xs) ys := by
      rw [mergeLists, if_neg hle]
    rw [hstep]
    exact (ih.cons y).trans List.perm_middle.symm

/-- The merge loop of two sorted runs is sorted. -/
theorem mergeLists_sorted : ∀ xs ys : List Bid, sortedByTitle xs → sortedByTitle ys →
    sortedByTitle (mergeLists xs ys) := by
  intro xs ys
  induction xs, ys using mergeLists.induct with
  | case1 ys => intro _ h; simpa [mergeLists] using h
  | case2 x xs => intro h _; simpa [mergeLists] using h
  | case3 x xs y ys hle ih =>
    intro hxs hys
    have hstep : mergeLists (x :: xs) (y :: ys) = x :: mergeLists xs (y :: ys) := by
      rw [mergeLists, if_pos hle]
    rw [sortedByTitle] at hxs
    obtain ⟨hxall, hxs'⟩ := List.pairwise_cons.mp hxs
    rw [hstep, sortedByTitle, List.pairwise_cons]
    refine ⟨?_, ih hxs' hys⟩
    intro z hz
    have hz' : z ∈ xs ++ y :: ys := (mergeLists_perm xs (y :: ys)).mem_iff.mp hz
    rcases List.mem_append.mp hz' with hzx | hzy
    · exact hxall z hzx
    · rcases List.mem_cons.mp hzy with rfl | hzys
      · exact strLeB_iff.mp hle
      · rw [sortedByTitle] at hys
        obtain ⟨hyall, _⟩ := List.pairwise_cons.mp hys
        exact le_trans (strLeB_iff.mp hle) (hyall z hzys)
  | case4 x xs y ys hle ih =>
    intro hxs hys
    have hstep : mergeLists (x :: xs) (y :: ys) = y :: mergeLists (x :: xs) ys := by
      rw [mergeLists, if_neg hle]
    have hlt : y.title < x.title := strLeB_false_iff.mp (by simpa using hle)
    rw [sortedByTitle] at hys
    obtain ⟨hyall, hys'⟩ := List.pairwise_cons.mp hys
    rw [hstep, sortedByTitle, List.pairwise_cons]
    refine ⟨?_, ih hxs hys'⟩
    intro z hz
    have hz' : z ∈ (x :: xs) ++ ys := (mergeLists_perm (x :: xs) ys).mem_iff.mp hz
    rcases List.mem_append.mp hz' with hzx | hzy
    · rcases List.mem_cons.mp hzx with rfl | hzxs
      · exact le_of_lt hlt
      · rw [sortedByTitle] at hxs
        obtain ⟨hxall, _⟩ := List.pairwise_cons.mp hxs
        exact le_trans (le_of_lt hlt) (hxall z hzxs)
    · exact hyall z hzy

/-- Stability of the merge loop: because ties are resolved with `<=`, the
subsequence carrying any fixed title is the left run's part followed by the
right run's part. -/
theorem mergeLists_filter : ∀ (xs ys : List Bid) (t : String), sortedByTitle xs →
    sortedByTitle ys →
    titleFilter t (mergeLists xs ys) = titleFilter t xs ++ titleFilter t ys := by
  intro xs ys t
  induction xs, ys using mergeLists.induct with
  | case1 ys => intro _ _; simp [mergeLists, titleFilter]
  | case2 x xs => intro _ _; simp [mergeLists, titleFilter]
  | case3 x xs y ys hle ih =>
    intro hxs hys
    have hstep : mergeLists (x :: xs) (y :: ys) = x :: mergeLists xs (y :: ys) := by
      rw [mergeLists, if_pos hle]
    obtain ⟨_, hxs'⟩ := List.pairwise_cons.mp hxs
    have hih := ih hxs' hys
    simp only [titleFilter] at hih ⊢
    rw [hstep]
    by_cases hx : strEqB x.title t = true
    · simp [List.filter_cons, hx, hih]
    · simp [List.filter_cons, hx, hih]
  | case4 x xs y ys hle ih =>
    intro hxs hys
    have hstep : mergeLists (x :: xs) (y :: ys) = y :: mergeLists (x :: xs) ys := by
      rw [mergeLists, if_neg hle]
    have hlt : y.title < x.title := strLeB_false_iff.mp (by simpa using hle)
    obtain ⟨hyall, hys'⟩ := List.pairwise_cons.mp hys
    rw [hstep]
    by_cases hy : strEqB y.title t = true
    · have ht : y.title = t := strEqB_iff.mp hy
      have hxnil : titleFilter t (x :: xs) = [] := by
        rw [titleFilter, List.filter_eq_nil_iff]
        intro z hz
        have hzx : x.title ≤ z.title := by
          rcases List.mem_cons.mp hz with rfl | hzxs
          · exact le_refl _
          · rw [sortedByTitle] at hxs
            exact (List.pairwise_cons.mp hxs).1 z hzxs
        have htz : t < z.title := lt_of_lt_of_le (ht ▸ hlt) hzx
        simp only [Bool.not_eq_true, strEqB_false_iff]
        exact fun h => absurd h (ne_of_gt htz)
      have := ih hxs hys'
      simp only [titleFilter] at this hxnil ⊢
      simp [List.filter_cons, hy, this, hxnil]
    · have hy' : strEqB y.title t = false := by simpa using hy
      have := ih hxs hys'
      simp only [titleFilter] at this ⊢
      simp [List.filter_cons, hy', this]

/-- Writing the merge of the two copied runs back over `[left, right]`:
on a list decomposed as prefix, left run, right run, suffix, `merge`
replaces the two runs by their merge and touches nothing else. -/
theorem merge_write (P A B S : List Bid) (l mid r : Nat)
    (hP : P.length = l) (hA : A.length = mid + 1 - l) (hB : B.length = r - mid)
    (hlm : l ≤ mid) (hmr : mid < r) :
    merge (P ++ (A ++ (B ++ S))) l mid r = P ++ (mergeLists A B ++ S) := by
  have e1 : List.take l (P ++ (A ++ (B ++ S))) = P := List.take_left' hP
  have e2 : List.drop l (P ++ (A ++ (B ++ S))) = A ++ (B ++ S) := List.drop_left' hP
  have e3 : List.take (mid - l + 1) (A ++ (B ++ S)) = A := List.take_left' (by omega)
  have e4 : P ++ (A ++ (B ++ S)) = (P ++ A) ++ (B ++ S) := by simp [List.append_assoc]
  have e5 : List.drop (mid + 1) ((P ++ A) ++ (B ++ S)) = B ++ S :=
    List.drop_left' (by simp [hP, hA]; omega)
  have e6 : List.take (r - mid) (B ++ S) = B := List.take_left' hB
  have e7 : (P ++ A) ++ (B ++ S) = ((P ++ A) ++ B) ++ S := by simp [List.append_assoc]
  have e8 : List.drop (r + 1) (((P ++ A) ++ B) ++ S) = S :=
    List.drop_left' (by simp [hP, hA, hB]; omega)
  unfold merge
  rw [e2, e3, e1, e4, e5, e6, e7, e8]
  simp [List.append_assoc]

theorem mergeSort_stop {bids : List Bid} {l r : Nat} (h : ¬ l < r) :
    mergeSort bids l r = bids := by
  rw [mergeSort, if_neg h]

/-- Main specification of `mergeSort` on a range: on a list decomposed as
prefix `P` (length `left`), middle `M` (the range `[left, right]`) and
suffix `S`, the call sorts `M` into a permutation of itself, stably, and
leaves `P` and `S` untouched. -/
theorem mergeSort_spec :
    ∀ bids l r, ∀ P M S : List Bid,
      bids = P ++ (M ++ S) → P.length = l → M.length = r + 1 - l → l ≤ r →
      ∃ N, mergeSort bids l r = P ++ (N ++ S) ∧ N.Perm M ∧ sortedByTitle N ∧
        (∀ t, titleFilter t N = titleFilter t M) := by
  intro bids l r
  induction bids, l, r using mergeSort.induct with
  | case1 bids l r hlr mid b1 ih0 ih1 ih2 =>
    intro P M S hbids hP hM hlr2
    have hmideq : mid = l + (r - l) / 2 := rfl
    have hmid1 : l ≤ mid := by omega
    have hmid2 : mid < r := by omega
    set M1 := M.take (mid + 1 - l) with hM1
    set M2 := M.drop (mid + 1 - l) with hM2
    have hM1len : M1.length = mid + 1 - l := by
      rw [hM1, List.length_take]; omega
    have hM2len : M2.length = r - mid := by
      rw [hM2, List.length_drop]; omega
    have hsplit : M = M1 ++ M2 := (List.take_append_drop _ M).symm
    obtain ⟨N1, hN1eq, hN1perm, hN1sorted, hN1filter⟩ :=
      ih0 P M1 (M2 ++ S)
        (by rw [hbids, hsplit]; simp [List.append_assoc]) hP (by omega) hmid1
    have hN1len : N1.length = mid + 1 - l := by
      have := hN1perm.length_eq; omega
    have hb1 : b1 = P ++ (N1 ++ (M2 ++ S)) := hN1eq
    obtain ⟨N2, hN2eq, hN2perm, hN2sorted, hN2filter⟩ :=
      ih2 (P ++ N1) M2 S
        (by rw [hb1]; simp [List.append_assoc])
        (by simp [hP, hN1len]; omega) (by omega) (by omega)
    have hN2len : N2.length = r - mid := by
      have := hN2perm.length_eq; omega
    have hmw := merge_write P N1 N2 S l mid r hP (by omega) (by omega) hmid1 hmid2
    refine ⟨mergeLists N1 N2, ?_, ?_, mergeLists_sorted N1 N2 hN1sorted hN2sorted, ?_⟩
    · have hstep : mergeSort bids l r = merge (mergeSort b1 (mid + 1) r) l mid r := by
        conv_lhs => rw [mergeSort]
        rw [if_pos hlr]
      rw [hstep, hN2eq, show (P ++ N1) ++ (N2 ++ S) = P ++ (N1 ++ (N2 ++ S)) by
        simp [List.append_assoc], hmw]
    · exact (mergeLists_perm N1 N2).trans
        (by rw [hsplit]; exact hN1perm.append hN2perm)
    · intro t
      rw [mergeLists_filter N1 N2 t hN1sorted hN2sorted, hN1filter t, hN2filter t, hsplit]
      simp [titleFilter, List.filter_append]
  | case2 bids l r hlr =>
    intro P M S hbids hP hM hlr2
    have hM1 : M.length = 1 := by omega
    obtain ⟨b, rfl⟩ := List.length_eq_one.mp hM1
    refine ⟨[b], ?_, List.Perm.refl _, ?_, fun t => rfl⟩
    · rw [mergeSort_stop hlr]; exact hbids
    · rw [sortedByTitle]; exact List.pairwise_singleton _ _

/-- `mergeSort(bids, 0, size - 1)` permutes the whole vector. -/
theorem mergeSortAll_perm (bids : List Bid) : (mergeSortAll bids).Perm bids := by
  by_cases h : bids.isEmpty
  · rw [mergeSortAll, if_pos h]
  · have hlen : 1 ≤ bids.length := by
      cases bids
      · simp at h
      · simp
    obtain ⟨N, hEq, hPerm, _, _⟩ :=
      mergeSort_spec bids 0 (bids.length - 1) [] bids [] (by simp) rfl (by omega) (by omega)
    rw [mergeSortAll, if_neg h, hEq]
    simpa using hPerm

/-- `mergeSort(bids, 0, size - 1)` sorts the whole vector by title. -/
theorem mergeSortAll_sorted (bids : List Bid) : sortedByTitle (mergeSortAll bids) := by
  by_cases h : bids.isEmpty
  · rw [mergeSortAll, if_pos h]
    have : bids = [] := by simpa using h
    rw [this, sortedByTitle]
    exact List.Pairwise.nil
  · have hlen : 1 ≤ bids.length := by
      cases bids
      · simp at h
      · simp
    obtain ⟨N, hEq, _, hSorted, _⟩ :=
      mergeSort_spec bids 0 (bids.length - 1) [] bids [] (by simp) rfl (by omega) (by omega)
    rw [mergeSortAll, if_neg h, hEq]
    simpa using hSorted

/-- Stability of the full merge sort: the subsequence of records with any
fixed title is preserved verbatim. -/
theorem mergeSortAll_filter (bids : List Bid) (t : String) :
    titleFilter t (mergeSortAll bids) = titleFilter t bids := by
  by_cases h : bids.isEmpty
  · rw [mergeSortAll, if_pos h]
  · have hlen : 1 ≤ bids.length := by
      cases bids
      · simp at h
      · simp
    obtain ⟨N, hEq, _, _, hFilter⟩ :=
      mergeSort_spec bids 0 (bids.length - 1) [] bids [] (by simp) rfl (by omega) (by omega)
    rw [mergeSortAll, if_neg h, hEq]
    simpa using hFilter t

/-! ### Correctness of `binarySearch` on a sorted vector -/

theorem bsLoop_stop {bids : List Bid} {title : String} {left right : Int}
    (h : ¬ left ≤ right) : bsLoop bids title left right = -1 := by
  rw [bsLoop, if_neg h]

/-- `bids[i]` for a non-negative `int` index is the `Nat` access. -/
theorem bidAt_nonneg {bids : List Bid} {i : Int} (h : 0 ≤ i) :
    bidAt bids i = bidAtN bids i.toNat := by
  rw [bidAt, if_pos h]

/-- If the searched title occurs nowhere in the vector, the loop reports
`-1` (no sortedness needed). -/
theorem bsLoop_notFound (bids : List Bid) (title : String) :
    ∀ left right : Int, 0 ≤ left → right < bids.length →
      (∀ i : Nat, i < bids.length → (bidAtN bids i).title ≠ title) →
      bsLoop bids title left right = -1 := by
  intro left right
  induction left, right using bsLoop.induct bids title with
  | case1 left right hle mid heq =>
    intro hl hr hnone
    have hmideq : mid = left + (((right - left).toNat / 2 : Nat) : Int) := rfl
    have hmidlen : mid.toNat < bids.length := by omega
    have hthis := hnone mid.toNat hmidlen
    rw [← bidAt_nonneg (by omega)] at hthis
    exact absurd (strEqB_iff.mp heq) hthis
  | case2 left right hle mid hne hlt ih =>
    intro hl hr hnone
    have hmideq : mid = left + (((right - left).toNat / 2 : Nat) : Int) := rfl
    have hstep : bsLoop bids title left right = bsLoop bids title (mid + 1) right := by
      conv_lhs => rw [bsLoop]
      rw [if_pos hle, show left + (((right - left).toNat / 2 : Nat) : Int) = mid from rfl,
        if_neg hne, if_pos hlt]
    rw [hstep]
    exact ih (by omega) hr hnone
  | case3 left right hle mid hne hge ih =>
    intro hl hr hnone
    have hmideq : mid = left + (((right - left).toNat / 2 : Nat) : Int) := rfl
    have hstep : bsLoop bids title left right = bsLoop bids title left (mid - 1) := by
      conv_lhs => rw [bsLoop]
      rw [if_pos hle, show left + (((right - left).toNat / 2 : Nat) : Int) = mid from rfl,
        if_neg hne, if_neg hge]
    rw [hstep]
    exact ih hl (by omega) hnone
  | case4 left right hgt =>
    intro _ _ _
    exact bsLoop_stop hgt

/-- Sortedness gives monotone titles over index pairs. -/
theorem sorted_titles_mono {bids : List Bid} (h : sortedByTitle bids) :
    ∀ p q : Nat, p ≤ q → q < bids.length →
      (bidAtN bids p).title ≤ (bidAtN bids q).title := by
  intro p q hpq hq
  rcases eq_or_lt_of_le hpq with rfl | hlt
  · exact le_refl _
  · rw [bidAtN_eq_getElem (by omega), bidAtN_eq_getElem hq]
    exact (List.pairwise_iff_getElem.mp h) p q (by omega) hq hlt

/-- If the searched title occurs in `[left, right]` and the vector is
sorted, the loop lands on an index holding that title. -/
theorem bsLoop_found (bids : List Bid) (title : String)
    (hsort : ∀ p q : Nat, p ≤ q → q < bids.length →
      (bidAtN bids p).title ≤ (bidAtN bids q).title) :
    ∀ left right : Int, 0 ≤ left → right < bids.length →
      (∃ i : Int, left ≤ i ∧ i ≤ right ∧ (bidAt bids i).title = title) →
      ∃ j : Nat, bsLoop bids title left right = (j : Int) ∧ j < bids.length ∧
        (bidAtN bids j).title = title := by
  intro left right
  induction left, right using bsLoop.induct bids title with
  | case1 left right hle mid heq =>
    intro hl hr _hex
    have hmideq : mid = left + (((right - left).toNat / 2 : Nat) : Int) := rfl
    have hstep : bsLoop bids title left right = mid := by
      conv_lhs => rw [bsLoop]
      rw [if_pos hle, show left + (((right - left).toNat / 2 : Nat) : Int) = mid from rfl,
        if_pos heq]
    have heq' := strEqB_iff.mp heq
    rw [bidAt_nonneg (by omega)] at heq'
    exact ⟨mid.toNat, by rw [hstep]; omega, by omega, heq'⟩
  | case2 left right hle mid hne hlt ih =>
    intro hl hr hex
    have hmideq : mid = left + (((right - left).toNat / 2 : Nat) : Int) := rfl
    obtain ⟨i, hi1, hi2, hi3⟩ := hex
    have hstep : bsLoop bids title left right = bsLoop bids title (mid + 1) right := by
      conv_lhs => rw [bsLoop]
      rw [if_pos hle, show left + (((right - left).toNat / 2 : Nat) : Int) = mid from rfl,
        if_neg hne, if_pos hlt]
    have hout : mid + 1 ≤ i := by
      by_contra hcon
      have hile : i ≤ mid := by omega
      have h1 : (bidAtN bids i.toNat).title ≤ (bidAtN bids mid.toNat).title :=
        hsort i.toNat mid.toNat (by omega) (by omega)
      rw [← bidAt_nonneg (by omega), ← bidAt_nonneg (by omega), hi3] at h1
      exact absurd (lt_of_le_of_lt h1 (strLtB_iff.mp hlt)) (lt_irrefl _)
    rw [hstep]
    exact ih (by omega) hr ⟨i, by omega, hi2, hi3⟩
  | case3 left right hle mid hne hge ih =>
    intro hl hr hex
    have hmideq : mid = left + (((right - left).toNat / 2 : Nat) : Int) := rfl
    obtain ⟨i, hi1, hi2, hi3⟩ := hex
    have hstep : bsLoop bids title left right = bsLoop bids title left (mid - 1) := by
      conv_lhs => rw [bsLoop]
      rw [if_pos hle, show left + (((right - left).toNat / 2 : Nat) : Int) = mid from rfl,
        if_neg hne, if_neg hge]
    have hout : i ≤ mid - 1 := by
      by_contra hcon
      have hmi : mid ≤ i := by omega
      have h1 : (bidAtN bids mid.toNat).title ≤ (bidAtN bids i.toNat).title :=
        hsort mid.toNat i.toNat (by omega) (by omega)
      rw [← bidAt_nonneg (by omega), ← bidAt_nonneg (by omega), hi3] at h1
      have h2 : title ≤ (bidAt bids mid).title := strLtB_false_iff.mp (by simpa using hge)
      have h3 : (bidAt bids mid).title = title := le_antisymm h1 h2
      exact hne (strEqB_iff.mpr h3)
    rw [hstep]
    exact ih hl (by omega) ⟨i, hi1, hout, hi3⟩
  | case4 left right hgt =>
    intro hl hr hex
    obtain ⟨i, hi1, hi2, _⟩ := hex
    exact absurd (le_trans hi1 hi2) hgt

/-! ### Non-termination of `quickSort` on a sorted pair

On a two-element range whose titles are already in strictly increasing
order, the pivot is the minimum: the left scan stops at index 0, the right
scan walks down to index 0, the `left <= right` branch swaps index 0 with
itself and moves the pointers to `1` and `-1`, and `partition` returns
`-1 = begin - 1`.  `quickSort` then recurses on `(mid + 1, end) = (0, 1)`,
the identical call, and never returns. -/

/-- `partition` on a strictly ascending pair returns `begin - 1 = -1`
whenever it has fuel to finish (3 loop steps suffice). -/
theorem partition_pair (f : Nat) (x y : Bid) (h : x.title.data < y.title.data) :
    partition (f + 3) [x, y] 0 1 = some ([x, y], -1) := by
  have hpivot : bidAt [x, y] (((0 + 1 : Int).toNat / 2 : Nat) : Int) = x := rfl
  have hxx : strLtB x.title x.title = false := by
    simp [strLtB]
  have hgyx : strGtB y.title x.title = true := by
    simpa [strGtB] using h
  have hgxx : strGtB x.title x.title = false := by
    simp [strGtB]
  have hswap : listSwapI [x, y] 0 0 = [x, y] := rfl
  show partitionLoop (f + 3) [x, y] x.title 0 1 = some ([x, y], -1)
  have h1 : scanLeft (f + 2) [x, y] x.title 0 = some 0 := by
    rw [scanLeft]
    simp only [show bidAt [x, y] 0 = x from rfl, hxx, Bool.false_eq_true, if_false]
  have h2 : scanRight (f + 2) [x, y] x.title 1 = some 0 := by
    rw [scanRight]
    simp only [show bidAt [x, y] 1 = y from rfl, hgyx, if_true]
    rw [scanRight]
    simp only [show bidAt [x, y] (1 - 1) = x from rfl, hgxx, Bool.false_eq_true, if_false]
    norm_num
  rw [partitionLoop]
  simp only [h1, h2, show ((0 : Int) ≤ 1) = True from by simp, if_true]
  rw [if_pos (le_refl (0 : Int)), hswap]
  rw [partitionLoop]
  norm_num

/-- With any fuel, `partition` on a strictly ascending pair either runs out
of fuel or returns the out-of-range partition point `-1`. -/
theorem partition_pair_cases (f : Nat) (x y : Bid) (h : x.title.data < y.title.data) :
    partition f [x, y] 0 1 = none ∨ partition f [x, y] 0 1 = some ([x, y], -1) := by
  match f with
  | 0 => exact Or.inl rfl
  | 1 =>
    left
    show partitionLoop 1 [x, y] x.title 0 1 = none
    rw [partitionLoop]
    simp [scanLeft]
  | 2 =>
    left
    show partitionLoop 2 [x, y] x.title 0 1 = none
    have hxx : strLtB x.title x.title = false := by simp [strLtB]
    have hgyx : strGtB y.title x.title = true := by simpa [strGtB] using h
    have h1 : scanLeft 1 [x, y] x.title 0 = some 0 := by
      rw [scanLeft]
      simp only [show bidAt [x, y] 0 = x from rfl, hxx, Bool.false_eq_true, if_false]
    have h2 : scanRight 1 [x, y] x.title 1 = none := by
      rw [scanRight]
      simp only [show bidAt [x, y] 1 = y from rfl, hgyx, if_true]
      rfl
    rw [partitionLoop]
    simp [h1, h2]
  | (f + 3) => exact Or.inr (partition_pair f x y h)

/-- `quickSort` immediately succeeds on an empty-or-singleton range. -/
theorem quickSort_base {bids : List Bid} {b e : Int} (h : e ≤ b) (f : Nat) :
    quickSort (f + 1) bids b e = some bids := by
  rw [quickSort, if_pos (by omega : b ≥ e)]

/-- `quickSort` never returns on a strictly ascending two-element vector:
whatever the fuel, the result is `none` (the C++ recursion repeats the call
`quickSort(bids, 0, 1)` forever). -/
theorem quickSort_pair_diverges (x y : Bid) (h : x.title.data < y.title.data) :
    ∀ f : Nat, quickSort f [x, y] 0 1 = none := by
  intro f
  induction f with
  | zero => rfl
  | succ f ih =>
    rw [quickSort]
    rw [if_neg (by omega : ¬ (0 : Int) ≥ 1)]
    rcases partition_pair_cases f x y h with hp | hp
    · simp only [hp]
    · simp only [hp]
      match f, ih with
      | 0, _ => rfl
      | (g + 1), ih =>
        simp only [quickSort_base (by omega : (-1 : Int) ≤ 0) g]
        exact ih

/-! ### Facts about the loader and numeric parsing -/

/-- On well-formed rows (at least 9 fields each) the loop maps every row to
its bid. -/
theorem loadRowsLoop_wellformed :
    ∀ rows : List (List String), (∀ r ∈ rows, 9 ≤ r.length) →
      loadRowsLoop rows = rows.map mkBidFromRow := by
  intro rows h
  induction rows with
  | nil => rfl
  | cons r rest ih =>
    rw [loadRowsLoop, if_pos (h r (by simp)), List.map_cons]
    rw [ih (fun q hq => h q (by simp [hq]))]

/-- The loop stops at the first short row, keeping the bids before it. -/
theorem loadRowsLoop_truncated :
    ∀ (good : List (List String)) (bad : List String) (rest : List (List String)),
      (∀ r ∈ good, 9 ≤ r.length) → bad.length < 9 →
      loadRowsLoop (good ++ bad :: rest) = good.map mkBidFromRow := by
  intro good bad rest hgood hbad
  induction good with
  | nil =>
    rw [List.nil_append, loadRowsLoop, if_neg (by omega)]
    rfl
  | cons r grest ih =>
    rw [List.cons_append, loadRowsLoop, if_pos (hgood r (by simp)), List.map_cons]
    rw [ih (fun q hq => hgood q (by simp [hq]))]

/-- The magnitude parsed by `atof` is never negative. -/
theorem parseMag_nonneg (cs : List Char) (r : Rat) (h : parseMag cs = some r) : 0 ≤ r := by
  rw [parseMag] at h
  dsimp only [] at h
  split at h
  · split at h
    · exact absurd h (by simp)
    · rename_i hcond
      rw [Option.some_inj] at h
      subst h
      have h10 : (0 : Rat) < 10 := by norm_num
      positivity
  · split at h
    · exact absurd h (by simp)
    · rw [Option.some_inj] at h
      subst h
      positivity

/-- Strip the optional sign, as `atof` does after skipping whitespace. -/
def dropSign : List Char → List Char
  | '-' :: t => t
  | '+' :: t => t
  | t => t

/-- Without a minus sign anywhere in the input, `atofModel` is
non-negative. -/
theorem atofModel_nonneg (cs : List Char) (h : '-' ∉ cs) : 0 ≤ atofModel cs := by
  have hsub : ∀ c, c ∈ cs.dropWhile isSpaceC → c ∈ cs :=
    fun c hc => (List.dropWhile_sublist isSpaceC).mem hc
  rw [atofModel]
  split
  · rename_i t heq
    exfalso
    exact h (hsub '-' (by rw [heq]; simp))
  · rename_i t heq
    cases hp : parseMag t with
    | none => simp
    | some r => simpa [hp] using parseMag_nonneg t r hp
  · cases hp : parseMag (cs.dropWhile isSpaceC) with
    | none => simp [hp]
    | some r => simpa [hp] using parseMag_nonneg _ r hp

/-- A malformed (non-numeric) input yields exactly zero: when no digits can
be parsed after the optional sign, `atofModel` returns 0. -/
theorem atofModel_malformed (cs : List Char)
    (h : parseMag (dropSign (cs.dropWhile isSpaceC)) = none) : atofModel cs = 0 := by
  rw [atofModel]
  split
  · rename_i t heq
    rw [show dropSign (cs.dropWhile isSpaceC) = t from by rw [heq]; rfl] at h
    simp [h]
  · rename_i t heq
    rw [show dropSign (cs.dropWhile isSpaceC) = t from by rw [heq]; rfl] at h
    simp [h]
  · rename_i hne1 hne2
    have hds : dropSign (cs.dropWhile isSpaceC) = cs.dropWhile isSpaceC := by
      rw [dropSign.eq_def]
      split
      · rename_i t2 heq2
        exact absurd heq2 (hne1 t2)
      · rename_i t2 heq2
        exact absurd heq2 (hne2 t2)
      · rfl
    rw [hds] at h
    simp [h]

/-- Without a minus sign in the input, `strToDouble` is non-negative. -/
theorem strToDouble_nonneg (s : String) (ch : Char) (h : '-' ∉ s.data) :
    0 ≤ strToDouble s ch :=
  atofModel_nonneg _ (fun hc => h (List.mem_filter.mp hc).1)

/-- Malformed numeric text parses to zero rather than failing. -/
theorem strToDouble_malformed (s : String) (ch : Char)
    (h : parseMag (dropSign ((s.data.filter (fun c => c ≠ ch)).dropWhile isSpaceC)) = none) :
    strToDouble s ch = 0 :=
  atofModel_malformed _ h

/-- With at most one occurrence of `ch`, erasing all occurrences (what the
code does) and stripping one occurrence (what the spec says) coincide. -/
theorem filter_ne_eq_erase (cs : List Char) (ch : Char) (h : cs.count ch ≤ 1) :
    cs.filter (fun c => c ≠ ch) = cs.erase ch := by
  induction cs with
  | nil => rfl
  | cons c t ih =>
    by_cases hc : c = ch
    · subst hc
      rw [List.erase_cons_head]
      have hcount : t.count c = 0 := by
        rw [List.count_cons_self] at h
        omega
      have hnotin : c ∉ t := List.count_eq_zero.mp hcount
      rw [List.filter_cons]
      have h1 : decide (c ≠ c) = false := by simp
      rw [h1]
      simp only [Bool.false_eq_true, if_false]
      rw [List.filter_eq_self]
      intro a ha
      simp only [decide_eq_true_eq]
      exact fun hh => hnotin (hh ▸ ha)
    · rw [List.filter_cons]
      have hcnt : t.count ch ≤ 1 := by
        rw [List.count_cons_of_ne (Ne.symm hc)] at h
        exact h
      have h1 : decide (c ≠ ch) = true := by simp [hc]
      rw [h1]
      simp only [if_true]
      rw [List.erase_cons_tail (by simp [hc]), ih hcnt]

/-- Stripping one `'$'` (the spec's reading): code and spec agree when the
input has at most one currency symbol. -/
theorem strToDouble_strip_one (s : String) (h : s.data.count '$' ≤ 1) :
    strToDouble s '$' = atofModel (s.data.erase '$') := by
  rw [strToDouble, filter_ne_eq_erase _ _ h]

/-! ### Facts about the identifier map -/

theorem buildBidMap_eq (bids : List Bid) :
    buildBidMap bids = (bids.map (fun b => (b.bidId, b))).reverse := by
  suffices h : ∀ (bs : List Bid) (acc : List (String × Bid)),
      bs.foldl (fun m b => hmInsert m b.bidId b) acc
        = (bs.map (fun b => (b.bidId, b))).reverse ++ acc by
    simpa using h bids []
  intro bs
  induction bs with
  | nil => intro acc; simp
  | cons b t ih =>
    intro acc
    rw [List.foldl_cons, ih]
    simp [hmInsert, List.append_assoc]

/-- Every loaded identifier maps back to its own bid (identifiers assumed
pairwise distinct). -/
theorem hmFind_present (bids : List Bid) (hu : (bids.map Bid.bidId).Nodup) :
    ∀ b ∈ bids, hmFind (buildBidMap bids) b.bidId = some b := by
  induction bids with
  | nil => intro b hb; simp at hb
  | cons hd tl ih =>
    rw [List.map_cons] at hu
    obtain ⟨hnotin, hutl⟩ := List.nodup_cons.mp hu
    intro b hb
    rw [buildBidMap_eq, List.map_cons, List.reverse_cons, hmFind, List.find?_append]
    rcases List.mem_cons.mp hb with rfl | hbtl
    · have hnone : List.find? (fun p => p.1 = b.bidId)
          ((tl.map (fun c => (c.bidId, c))).reverse) = none := by
        rw [List.find?_eq_none]
        intro x hx
        rw [List.mem_reverse, List.mem_map] at hx
        obtain ⟨c, hc, rfl⟩ := hx
        simp only [decide_eq_true_eq, Bool.not_eq_true]
        intro hcb
        exact hnotin (List.mem_map.mpr ⟨c, hc, hcb⟩)
      rw [hnone, Option.none_or]
      simp [List.find?]
    · have hthis := ih hutl b hbtl
      rw [buildBidMap_eq, hmFind] at hthis
      obtain ⟨a, ha, ha2⟩ := Option.map_eq_some'.mp hthis
      rw [ha]
      simpa [Option.or] using ha2

/-- A never-loaded identifier is reported as not found. -/
theorem hmFind_absent (bids : List Bid) (key : String)
    (h : key ∉ bids.map Bid.bidId) : hmFind (buildBidMap bids) key = none := by
  rw [buildBidMap_eq, hmFind]
  have hnone : List.find? (fun p => p.1 = key)
      ((bids.map (fun b => (b.bidId, b))).reverse) = none := by
    rw [List.find?_eq_none]
    intro x hx
    rw [List.mem_reverse, List.mem_map] at hx
    obtain ⟨c, hc, rfl⟩ := hx
    simp only [decide_eq_true_eq, Bool.not_eq_true]
    intro hck
    exact h (List.mem_map.mpr ⟨c, hc, hck⟩)
  rw [hnone]
  rfl

/-! ### Agreement of the sorts on distinct titles -/

/-- Two sorted permutations of a vector with pairwise-distinct titles are
equal; in particular `selectionSort` and the full `mergeSort` agree. -/
theorem selectionSort_eq_mergeSortAll (bids : List Bid)
    (h : (bids.map Bid.title).Nodup) : selectionSort bids = mergeSortAll bids := by
  have hanti : IsAntisymm Bid (fun a b => a.title < b.title) :=
    ⟨fun a b h1 h2 => absurd h2 (lt_asymm h1)⟩
  have hperm : (selectionSort bids).Perm (mergeSortAll bids) :=
    (selectionSort_perm bids).trans (mergeSortAll_perm bids).symm
  have hstrict : ∀ l : List Bid, l.Perm bids → sortedByTitle l →
      l.Pairwise (fun a b => a.title < b.title) := by
    intro l hp hs
    have hnd : (l.map Bid.title).Nodup := (hp.map Bid.title).nodup_iff.mpr h
    have hne : l.Pairwise (fun a b => a.title ≠ b.title) := by
      rw [List.Nodup] at hnd
      exact (List.pairwise_map.mp hnd)
    rw [sortedByTitle] at hs
    have hcomb := List.Pairwise.and hs hne
    exact hcomb.imp (fun hab => lt_of_le_of_ne hab.1 hab.2)
  exact @List.eq_of_perm_of_sorted Bid (fun a b => a.title < b.title) hanti _ _ hperm
    (hstrict _ (selectionSort_perm bids) (selectionSort_sorted bids))
    (hstrict _ (mergeSortAll_perm bids) (mergeSortAll_sorted bids))

/-! ### Concrete data used by the claim instances -/

def bidA : Bid := ⟨"98201", "A", "General Fund", 1⟩

def bidB : Bid := ⟨"98202", "B", "General Fund", 2⟩

def bidA10 : Bid := ⟨"98301", "Alpha", "Enterprise", 1⟩

def bidB10 : Bid := ⟨"98302", "Beta", "Enterprise", 2⟩

def bidZeta : Bid := ⟨"98101", "Zeta", "General Fund", 1⟩

def bidAlpha : Bid := ⟨"98102", "Alpha", "General Fund", 2⟩

def bidMu : Bid := ⟨"98103", "Mu", "General Fund", 3⟩

def bidAlpha2 : Bid := ⟨"98104", "Alpha", "Enterprise", 4⟩

def bidMu2 : Bid := ⟨"98105", "Mu", "Enterprise", 5⟩

def wfRow : List String := ["Widget", "B1", "", "", "$125.50", "", "", "", "FundA"]

def shortRow : List String := ["only", "three", "cols"]

/-! ### The claims -/

/-- Claim C1: selectionSort and mergeSort (begin 0, end size-1) produce a
vector that is a permutation of the input with non-decreasing titles; but
the claim fails for quickSort, which never returns on the two-element
already-sorted vector with titles `["A", "B"]` (its partition returns
`begin - 1` and the recursion repeats the identical range). -/
theorem claimC1_sorts :
    (∀ bids : List Bid, (selectionSort bids).Perm bids ∧ sortedByTitle (selectionSort bids)) ∧
    (∀ bids : List Bid, (mergeSortAll bids).Perm bids ∧ sortedByTitle (mergeSortAll bids)) ∧
    (∀ fuel : Nat, quickSort fuel [bidA, bidB] 0 1 = none) :=
  ⟨fun bids => ⟨selectionSort_perm bids, selectionSort_sorted bids⟩,
   fun bids => ⟨mergeSortAll_perm bids, mergeSortAll_sorted bids⟩,
   quickSort_pair_diverges bidA bidB (by decide)⟩

/-- Claim C2: on a vector sorted by title, binarySearch returns an index
holding the queried title whenever one exists, and `-1` when none does. -/
theorem claimC2_binarySearch (bids : List Bid) (key : String)
    (hs : sortedByTitle bids) :
    ((∃ i : Nat, i < bids.length ∧ (bidAtN bids i).title = key) →
      ∃ j : Nat, binarySearch bids key = (j : Int) ∧ j < bids.length ∧
        (bidAtN bids j).title = key) ∧
    ((∀ i : Nat, i < bids.length → (bidAtN bids i).title ≠ key) →
      binarySearch bids key = -1) := by
  constructor
  · intro hex
    obtain ⟨i, hi, hti⟩ := hex
    show ∃ j : Nat, bsLoop bids key 0 ((bids.length : Int) - 1) = (j : Int) ∧
      j < bids.length ∧ (bidAtN bids j).title = key
    apply bsLoop_found bids key (sorted_titles_mono hs) 0 ((bids.length : Int) - 1)
      (by omega) (by omega)
    refine ⟨(i : Int), by omega, by omega, ?_⟩
    rw [bidAt_nonneg (by omega)]
    simpa using hti
  · intro hnone
    show bsLoop bids key 0 ((bids.length : Int) - 1) = -1
    exact bsLoop_notFound bids key 0 _ (by omega) (by omega) hnone

/-- Claim C2 witness: the spec's own example, searching `"Mu"` and
`"Omega"` in the sorted titles `["Alpha", "Mu", "Zeta"]`. -/
theorem claimC2_binarySearch_witness :
    (∃ j : Nat, binarySearch [bidAlpha, bidMu, bidZeta] "Mu" = (j : Int) ∧
      j < [bidAlpha, bidMu, bidZeta].length ∧
      (bidAtN [bidAlpha, bidMu, bidZeta] j).title = "Mu") ∧
    binarySearch [bidAlpha, bidMu, bidZeta] "Omega" = -1 := by
  have hs : sortedByTitle [bidAlpha, bidMu, bidZeta] := by
    rw [sortedByTitle]
    simp +decide [bidAlpha, bidMu, bidZeta]
  exact ⟨(claimC2_binarySearch [bidAlpha, bidMu, bidZeta] "Mu" hs).1 ⟨1, by decide⟩,
    (claimC2_binarySearch [bidAlpha, bidMu, bidZeta] "Omega" hs).2 (by decide)⟩

/-- Claim C3: loading N well-formed rows (at least 9 fields each) yields
exactly N bids whose title, bidId and fund are columns 0, 1 and 8 verbatim
and whose amount is the parse of column 4; when column 4 carries at most
one currency symbol, that parse equals the numeric value after stripping
one `'$'`, as the spec words it. -/
theorem claimC3_loadBids (rows : List (List String))
    (h9 : ∀ r ∈ rows, 9 ≤ r.length) :
    ∃ bs, loadBids (Except.ok rows) = Except.ok bs ∧ bs.length = rows.length ∧
      ∀ i, i < rows.length →
        (bidAtN bs i).title = (rows.getD i []).getD 0 "" ∧
        (bidAtN bs i).bidId = (rows.getD i []).getD 1 "" ∧
        (bidAtN bs i).fund = (rows.getD i []).getD 8 "" ∧
        (bidAtN bs i).amount = strToDouble ((rows.getD i []).getD 4 "") '$' ∧
        (((rows.getD i []).getD 4 "").data.count '$' ≤ 1 →
          (bidAtN bs i).amount = atofModel ((((rows.getD i []).getD 4 "").data.erase '$'))) := by
  refine ⟨rows.map mkBidFromRow, ?_, by simp, ?_⟩
  · show Except.ok (loadRowsLoop rows) = Except.ok (rows.map mkBidFromRow)
    rw [loadRowsLoop_wellformed rows h9]
  · intro i hi
    have hb : bidAtN (rows.map mkBidFromRow) i = mkBidFromRow (rows.getD i []) := by
      rw [bidAtN_eq_getElem (by simpa using hi), List.getElem_map]
      congr 1
      rw [List.getD_eq_getElem _ _ hi]
    rw [hb]
    exact ⟨rfl, rfl, rfl, rfl, fun hc => strToDouble_strip_one _ hc⟩

/-- Claim C3 witness: the spec's example row
`["Widget","B1","","","$125.50","","","","FundA"]`. -/
theorem claimC3_loadBids_witness :
    ∃ bs, loadBids (Except.ok [wfRow]) = Except.ok bs ∧ bs.length = [wfRow].length ∧
      ∀ i, i < [wfRow].length →
        (bidAtN bs i).title = ([wfRow].getD i []).getD 0 "" ∧
        (bidAtN bs i).bidId = ([wfRow].getD i []).getD 1 "" ∧
        (bidAtN bs i).fund = ([wfRow].getD i []).getD 8 "" ∧
        (bidAtN bs i).amount = strToDouble (([wfRow].getD i []).getD 4 "") '$' ∧
        ((([wfRow].getD i []).getD 4 "").data.count '$' ≤ 1 →
          (bidAtN bs i).amount = atofModel (((([wfRow].getD i []).getD 4 "").data.erase '$'))) :=
  claimC3_loadBids [wfRow] (by decide)

/-- Claim C4 counterexample: `strToDouble` does return negative amounts —
`"-12.50"` (no currency symbol, leading minus) parses to `-12.5`, so "the
amount produced by parsing is non-negative for every input string" is
false. -/
theorem claimC4_counterexample :
    strToDouble "-12.50" '$' = -(25 : Rat) / 2 ∧
    ¬ (0 ≤ strToDouble "-12.50" '$') := by
  have h : strToDouble "-12.50" '$' = -(25 : Rat) / 2 := by
    have hdata : "-12.50".data = ['-', '1', '2', '.', '5', '0'] := by decide
    rw [strToDouble, hdata]
    simp +decide [atofModel, parseMag, expVal, digitsVal, digitVal, isSpaceC, List.filter,
      List.dropWhile, List.takeWhile]
    norm_num
  refine ⟨h, ?_⟩
  rw [h]
  norm_num

/-- Claim C4 amended: malformed (non-numeric) input parses to zero rather
than failing, and the parsed amount is non-negative whenever the input
contains no minus sign; inputs with a leading minus parse negative. -/
theorem claimC4_amended :
    (∀ s : String, '-' ∉ s.data → 0 ≤ strToDouble s '$') ∧
    (∀ s : String,
      parseMag (dropSign ((s.data.filter (fun c => c ≠ '$')).dropWhile isSpaceC)) = none →
      strToDouble s '$' = 0) ∧
    strToDouble "-12.50" '$' < 0 := by
  refine ⟨fun s h => strToDouble_nonneg s '$' h,
    fun s h => strToDouble_malformed s '$' h, ?_⟩
  have hdata : "-12.50".data = ['-', '1', '2', '.', '5', '0'] := by decide
  rw [strToDouble, hdata]
  simp +decide [atofModel, parseMag, expVal, digitsVal, digitVal, isSpaceC, List.filter,
    List.dropWhile, List.takeWhile]
  norm_num

/-- Claim C4 witness: a well-formed currency string parses non-negative,
and a non-numeric string parses to zero. -/
theorem claimC4_amended_witness :
    0 ≤ strToDouble "$125.50" '$' ∧ strToDouble "abc" '$' = 0 :=
  ⟨claimC4_amended.1 "$125.50" (by decide), claimC4_amended.2.1 "abc" (by decide)⟩

/-- Claim C5 counterexample: when the row source itself cannot be read
(file missing), the failure arises in `csv::Parser(csvPath)` — outside the
`try` block — and propagates out of `loadBids` instead of producing a
(possibly empty) vector. -/
theorem claimC5_counterexample :
    loadBids (Except.error "Failed to open file") =
      Except.error "Failed to open file" := rfl

/-- Claim C5 amended: failures raised while iterating rows (a malformed
row with fewer than 9 fields) are caught inside `loadBids`, which returns
exactly the bids read before the failure point; but a failure to open or
parse the file at parser-construction time propagates out of `loadBids`
unhandled. -/
theorem claimC5_amended :
    (∀ e : String, loadBids (Except.error e) = Except.error e) ∧
    (∀ (good : List (List String)) (bad : List String) (rest : List (List String)),
      (∀ r ∈ good, 9 ≤ r.length) → bad.length < 9 →
      loadBids (Except.ok (good ++ bad :: rest)) = Except.ok (good.map mkBidFromRow)) := by
  constructor
  · intro e; rfl
  · intro good bad rest hg hb
    show Except.ok (loadRowsLoop (good ++ bad :: rest)) = Except.ok (good.map mkBidFromRow)
    rw [loadRowsLoop_truncated good bad rest hg hb]

/-- Claim C5 witness: one good row, then a 3-field row, then another good
row; only the first row's bid is returned. -/
theorem claimC5_amended_witness :
    loadBids (Except.ok ([wfRow] ++ shortRow :: [wfRow])) =
      Except.ok ([wfRow].map mkBidFromRow) :=
  claimC5_amended.2 [wfRow] shortRow [wfRow] (by decide) (by decide)

/-- Claim C6: mergeSort is stable — because the merge step compares with
`<=`, ties take the left half first, so for any title the subsequence of
records carrying it is preserved verbatim (the standard formalization of
"the bid that occurs earlier in the input occurs earlier in the sorted
output" for records with equal titles). -/
theorem claimC6_mergeSort_stable (bids : List Bid) (t : String) :
    titleFilter t (mergeSortAll bids) = titleFilter t bids :=
  mergeSortAll_filter bids t

/-- Claim C7: starting from a non-existent file, two consecutive calls of
`exportBenchmarkToCSV` produce exactly one header line followed by the two
data lines `algorithm,dataSize,timeMs`. -/
theorem claimC7_export_two_rows (a1 a2 : String) (n1 n2 : Nat) (t1 t2 : Int) :
    exportBenchmarkToCSV (some (exportBenchmarkToCSV none a1 n1 t1)) a2 n2 t2 =
      ["Algorithm,DataSize,TimeMs", benchLine a1 n1 t1, benchLine a2 n2 t2] := rfl

/-- Claim C8: after building the identifier map from loaded bids with
pairwise-distinct identifiers, lookup returns the matching bid for every
loaded identifier and not-found for every identifier never loaded. -/
theorem claimC8_idLookup (bids : List Bid) (hu : (bids.map Bid.bidId).Nodup) :
    (∀ b ∈ bids, hmFind (buildBidMap bids) b.bidId = some b) ∧
    (∀ key : String, key ∉ bids.map Bid.bidId → hmFind (buildBidMap bids) key = none) :=
  ⟨hmFind_present bids hu, fun key hk => hmFind_absent bids key hk⟩

/-- Claim C8 witness: a concrete two-bid store. -/
theorem claimC8_idLookup_witness :
    hmFind (buildBidMap [bidA, bidB]) bidA.bidId = some bidA ∧
    hmFind (buildBidMap [bidA, bidB]) "99999" = none := by
  have h := claimC8_idLookup [bidA, bidB] (by decide)
  exact ⟨h.1 bidA (by simp), h.2 "99999" (by decide)⟩

/-- Claim C9: on the spec's example `["Zeta","Alpha","Mu"]` all three
sorts yield `["Alpha","Mu","Zeta"]`, and selectionSort and mergeSort agree
on every vector with pairwise-distinct titles; but the universal claim
fails for quickSort, which never returns on the already-ordered
distinct-title pair `["Alpha","Mu"]`. -/
theorem claimC9_three_sorts :
    (∀ bids : List Bid, (bids.map Bid.title).Nodup →
      selectionSort bids = mergeSortAll bids) ∧
    selectionSort [bidZeta, bidAlpha, bidMu] = [bidAlpha, bidMu, bidZeta] ∧
    mergeSortAll [bidZeta, bidAlpha, bidMu] = [bidAlpha, bidMu, bidZeta] ∧
    quickSort 30 [bidZeta, bidAlpha, bidMu] 0 2 = some [bidAlpha, bidMu, bidZeta] ∧
    (∀ fuel : Nat, quickSort fuel [bidAlpha2, bidMu2] 0 1 = none) := by
  refine ⟨fun bids h => selectionSort_eq_mergeSortAll bids h, ?_, ?_, by decide,
    quickSort_pair_diverges _ _ (by decide)⟩
  · simp +decide [selectionSort, selLoop, findMin, bidAtN, listSwap,
      bidZeta, bidAlpha, bidMu]
  · simp +decide [mergeSortAll, mergeSort, merge, mergeLists,
      bidZeta, bidAlpha, bidMu]

/-- Claim C9 witness: the agreement of selectionSort and mergeSort at the
example vector, whose titles are pairwise distinct. -/
theorem claimC9_three_sorts_witness :
    selectionSort [bidZeta, bidAlpha, bidMu] = mergeSortAll [bidZeta, bidAlpha, bidMu] :=
  claimC9_three_sorts.1 [bidZeta, bidAlpha, bidMu] (by decide)

/-- Claim C10: the claimed bound `begin ≤ partition(bids, begin, end) < end`
is false — on the ascending pair with titles `["Alpha","Beta"]`,
`partition` returns `-1 = begin - 1`, and `quickSort(begin, end)` then
recurses on the identical range `(mid + 1, end) = (0, 1)` and never
terminates. -/
theorem claimC10_partition_out_of_range :
    partition 10 [bidA10, bidB10] 0 1 = some ([bidA10, bidB10], -1) ∧
    ¬ ((0 : Int) ≤ -1) ∧
    (∀ fuel : Nat, quickSort fuel [bidA10, bidB10] 0 1 = none) :=
  ⟨by decide, by decide, quickSort_pair_diverges _ _ (by decide)⟩
